import Mathlib

/-!
Verification development for the npm gateway (src/go/gateway/npm.go).

The gateway resolves a package name and version constraint against npm
registry metadata and downloads the matching tarball.  The resolution
logic of `findPackageVersionTar` (lines 85-168 of npm.go) is embedded
below as the pure function `resolveCore`; the network stages of
`findPackageVersionTar`, `downloadPackageTar` and `DownloadPackage` are
embedded with their I/O outcomes supplied by explicit environments.

The semantic-version library used by the source
(`github.com/hashicorp/go-version`) is not part of the repository;
its behaviour is modelled from the specification (spec.md §3 "Parsed
Version", §4.1 step 3, and the glossary entry for the pessimistic
constraint): a version is up to three numeric components, optionally
followed by pre-release qualifiers, ordered by standard semantic-version
precedence; missing components are read as zero, and the canonical
rendering always prints three components.
-/

/-! ## Ordering combinators -/

/-- Lexicographic combination of two comparison outcomes. -/
def ordThen (o p : Ordering) : Ordering :=
  match o with
  | .eq => p
  | o => o

@[simp] theorem ordThen_lt (p : Ordering) : ordThen .lt p = .lt := rfl

@[simp] theorem ordThen_eq (p : Ordering) : ordThen .eq p = p := rfl

@[simp] theorem ordThen_gt (p : Ordering) : ordThen .gt p = .gt := rfl

/-- Three-way comparison of naturals. -/
def cmpNat (a b : Nat) : Ordering :=
  if a < b then .lt else if b < a then .gt else .eq

theorem cmpNat_eq_lt {a b : Nat} : cmpNat a b = .lt ↔ a < b := by
  unfold cmpNat
  split
  · simp [*]
  · split <;> simp <;> omega

theorem cmpNat_eq_gt {a b : Nat} : cmpNat a b = .gt ↔ b < a := by
  unfold cmpNat
  split
  · simp
    omega
  · split <;> simp <;> omega

theorem cmpNat_eq_eq {a b : Nat} : cmpNat a b = .eq ↔ a = b := by
  unfold cmpNat
  split
  · simp
    omega
  · split <;> simp <;> omega

/-- A lawful three-way comparison: antisymmetric under `swap`, with `eq`
meaning equality, and transitive `lt`. -/
structure LawfulCmp {α : Type} (f : α → α → Ordering) : Prop where
  swap_eq : ∀ a b, f a b = (f b a).swap
  eq_iff : ∀ a b, f a b = .eq ↔ a = b
  lt_trans : ∀ {a b c}, f a b = .lt → f b c = .lt → f a c = .lt

theorem lawful_cmpNat : LawfulCmp cmpNat := by
  constructor
  · intro a b
    rcases Nat.lt_trichotomy a b with h | h | h
    · rw [cmpNat_eq_lt.mpr h, cmpNat_eq_gt.mpr h]
      rfl
    · rw [cmpNat_eq_eq.mpr h, cmpNat_eq_eq.mpr h.symm]
      rfl
    · rw [cmpNat_eq_gt.mpr h, cmpNat_eq_lt.mpr h]
      rfl
  · intro a b
    exact cmpNat_eq_eq
  · intro a b c hab hbc
    rw [cmpNat_eq_lt] at *
    omega

theorem LawfulCmp.gt_of_lt {α : Type} {f : α → α → Ordering} (hf : LawfulCmp f)
    {a b : α} (h : f a b = .lt) : f b a = .gt := by
  rw [hf.swap_eq b a, h]
  rfl

theorem LawfulCmp.lt_of_gt {α : Type} {f : α → α → Ordering} (hf : LawfulCmp f)
    {a b : α} (h : f a b = .gt) : f b a = .lt := by
  rw [hf.swap_eq b a, h]
  rfl

theorem LawfulCmp.eq_symm {α : Type} {f : α → α → Ordering} (hf : LawfulCmp f)
    {a b : α} (h : f a b = .eq) : f b a = .eq := by
  rw [hf.swap_eq b a, h]
  rfl

theorem LawfulCmp.refl {α : Type} {f : α → α → Ordering} (hf : LawfulCmp f)
    (a : α) : f a a = .eq :=
  (hf.eq_iff a a).mpr rfl

/-- For a lawful comparison, "not below" is transitive. -/
theorem LawfulCmp.ge_trans {α : Type} {f : α → α → Ordering} (hf : LawfulCmp f)
    {a b c : α} (hab : f a b ≠ .lt) (hbc : f b c ≠ .lt) : f a c ≠ .lt := by
  intro hac
  rcases h1 : f a b with _ | _ | _
  · exact hab h1
  · rw [(hf.eq_iff a b).mp h1] at hac
    exact hbc hac
  · rcases h2 : f b c with _ | _ | _
    · exact hbc h2
    · rw [(hf.eq_iff b c).mp h2] at h1
      exact Ordering.noConfusion (hac.symm.trans h1)
    · have hca : f c a = .lt := hf.lt_trans (hf.lt_of_gt h2) (hf.lt_of_gt h1)
      exact Ordering.noConfusion (hac.symm.trans (hf.gt_of_lt hca))

/-- Elementwise lexicographic comparison of lists; a strict prefix
compares below the longer list. -/
def cmpList {α : Type} (f : α → α → Ordering) : List α → List α → Ordering
  | [], [] => .eq
  | [], _ :: _ => .lt
  | _ :: _, [] => .gt
  | a :: as, b :: bs => ordThen (f a b) (cmpList f as bs)

theorem cmpList_swap {α : Type} {f : α → α → Ordering} (hf : LawfulCmp f) :
    ∀ a b : List α, cmpList f a b = (cmpList f b a).swap
  | [], [] => rfl
  | [], _ :: _ => rfl
  | _ :: _, [] => rfl
  | a :: as, b :: bs => by
    simp only [cmpList]
    rcases h : f a b with _ | _ | _
    · rw [hf.gt_of_lt h]
      rfl
    · rw [hf.eq_symm h]
      simp only [ordThen_eq]
      exact cmpList_swap hf as bs
    · rw [hf.lt_of_gt h]
      rfl

theorem cmpList_eq_iff {α : Type} {f : α → α → Ordering} (hf : LawfulCmp f) :
    ∀ a b : List α, cmpList f a b = .eq ↔ a = b
  | [], [] => by simp [cmpList]
  | [], _ :: _ => by simp [cmpList]
  | _ :: _, [] => by simp [cmpList]
  | a :: as, b :: bs => by
    simp only [cmpList]
    rcases h : f a b with _ | _ | _
    · simp only [ordThen_lt]
      constructor
      · intro h2
        exact Ordering.noConfusion h2
      · intro h2
        injection h2 with h3 h4
        rw [h3, hf.refl b] at h
        exact Ordering.noConfusion h
    · obtain rfl := (hf.eq_iff a b).mp h
      simp only [ordThen_eq]
      rw [cmpList_eq_iff hf as bs]
      simp
    · simp only [ordThen_gt]
      constructor
      · intro h2
        exact Ordering.noConfusion h2
      · intro h2
        injection h2 with h3 h4
        rw [h3, hf.refl b] at h
        exact Ordering.noConfusion h

theorem cmpList_lt_trans {α : Type} {f : α → α → Ordering} (hf : LawfulCmp f) :
    ∀ a b c : List α, cmpList f a b = .lt → cmpList f b c = .lt →
      cmpList f a c = .lt
  | [], [], _, hab, _ => by simp [cmpList] at hab
  | _ :: _, [], _, hab, _ => by simp [cmpList] at hab
  | [], _ :: _, [], _, hbc => by simp [cmpList] at hbc
  | _ :: _, _ :: _, [], _, hbc => by simp [cmpList] at hbc
  | [], _ :: _, _ :: _, _, _ => rfl
  | a :: as, b :: bs, c :: cs, hab, hbc => by
    simp only [cmpList] at hab hbc ⊢
    rcases h1 : f a b with _ | _ | _ <;> rw [h1] at hab
    · rcases h2 : f b c with _ | _ | _ <;> rw [h2] at hbc
      · rw [hf.lt_trans h1 h2]
        rfl
      · obtain rfl := (hf.eq_iff b c).mp h2
        rw [h1]
        rfl
      · simp at hbc
    · obtain rfl := (hf.eq_iff a b).mp h1
      simp only [ordThen_eq] at hab
      rcases h2 : f a c with _ | _ | _ <;> rw [h2] at hbc
      · rfl
      · simp only [ordThen_eq] at hbc ⊢
        exact cmpList_lt_trans hf as bs cs hab hbc
      · simp at hbc
    · simp at hab

theorem lawful_cmpList {α : Type} {f : α → α → Ordering} (hf : LawfulCmp f) :
    LawfulCmp (cmpList f) :=
  ⟨cmpList_swap hf, cmpList_eq_iff hf, fun {a b c} => cmpList_lt_trans hf a b c⟩

/-- Lexicographic combination of two comparisons on a pair. -/
def cmpProd {α β : Type} (f : α → α → Ordering) (g : β → β → Ordering)
    (a b : α × β) : Ordering :=
  ordThen (f a.1 b.1) (g a.2 b.2)

theorem lawful_cmpProd {α β : Type} {f : α → α → Ordering} {g : β → β → Ordering}
    (hf : LawfulCmp f) (hg : LawfulCmp g) : LawfulCmp (cmpProd f g) := by
  constructor
  · intro a b
    simp only [cmpProd]
    rcases h : f a.1 b.1 with _ | _ | _
    · rw [hf.gt_of_lt h]
      rfl
    · rw [hf.eq_symm h]
      simp only [ordThen_eq]
      exact hg.swap_eq a.2 b.2
    · rw [hf.lt_of_gt h]
      rfl
  · intro a b
    rcases a with ⟨a1, a2⟩
    rcases b with ⟨b1, b2⟩
    simp only [cmpProd]
    rcases h : f a1 b1 with _ | _ | _
    · simp only [ordThen_lt]
      constructor
      · intro h2
        exact Ordering.noConfusion h2
      · intro h2
        injection h2 with h3 h4
        rw [h3, hf.refl b1] at h
        exact Ordering.noConfusion h
    · obtain rfl := (hf.eq_iff a1 b1).mp h
      simp only [ordThen_eq]
      rw [hg.eq_iff]
      simp
    · simp only [ordThen_gt]
      constructor
      · intro h2
        exact Ordering.noConfusion h2
      · intro h2
        injection h2 with h3 h4
        rw [h3, hf.refl b1] at h
        exact Ordering.noConfusion h
  · intro a b c hab hbc
    simp only [cmpProd] at hab hbc ⊢
    rcases h1 : f a.1 b.1 with _ | _ | _ <;> rw [h1] at hab
    · rcases h2 : f b.1 c.1 with _ | _ | _ <;> rw [h2] at hbc
      · rw [hf.lt_trans h1 h2]
        rfl
      · rw [← (hf.eq_iff b.1 c.1).mp h2, h1]
        rfl
      · simp at hbc
    · rw [(hf.eq_iff a.1 b.1).mp h1]
      simp only [ordThen_eq] at hab
      rcases h2 : f b.1 c.1 with _ | _ | _ <;> rw [h2] at hbc
      · rfl
      · simp only [ordThen_eq] at hbc ⊢
        exact hg.lt_trans hab hbc
      · simp at hbc
    · simp at hab

/-! ## Semantic versions, modelled from the spec -/

/-- Modelled from the spec: a single pre-release identifier of a semantic
version (spec.md §3 "Parsed Version": pre-release qualifiers participate
in precedence).  Identifiers consisting only of digits are numeric and
compare numerically; all other identifiers compare lexically and rank
above every numeric identifier. -/
inductive PreId : Type where
  | num (n : Nat)
  | alnum (s : List Char)
deriving DecidableEq

/-- Comparison of characters by code point. -/
def cmpChar (c d : Char) : Ordering :=
  cmpNat c.toNat d.toNat

theorem lawful_cmpChar : LawfulCmp cmpChar := by
  constructor
  · intro a b
    exact lawful_cmpNat.swap_eq a.toNat b.toNat
  · intro a b
    unfold cmpChar
    rw [lawful_cmpNat.eq_iff]
    constructor
    · intro h
      have := congrArg Char.ofNat h
      rwa [Char.ofNat_toNat, Char.ofNat_toNat] at this
    · intro h
      rw [h]
  · intro a b c hab hbc
    exact lawful_cmpNat.lt_trans hab hbc

/-- Modelled from the spec: comparison of two pre-release identifiers
under standard semantic-version precedence. -/
def cmpPreId (p q : PreId) : Ordering :=
  match p, q with
  | .num a, .num b => cmpNat a b
  | .num _, .alnum _ => .lt
  | .alnum _, .num _ => .gt
  | .alnum a, .alnum b => cmpList cmpChar a b

theorem cmpPreId_swap : ∀ a b : PreId, cmpPreId a b = (cmpPreId b a).swap
  | .num a, .num b => lawful_cmpNat.swap_eq a b
  | .num _, .alnum _ => rfl
  | .alnum _, .num _ => rfl
  | .alnum a, .alnum b => cmpList_swap lawful_cmpChar a b

theorem cmpPreId_eq_iff : ∀ a b : PreId, cmpPreId a b = .eq ↔ a = b
  | .num a, .num b => by
    rw [show cmpPreId (.num a) (.num b) = cmpNat a b from rfl, cmpNat_eq_eq]
    simp
  | .num _, .alnum _ => by simp [cmpPreId]
  | .alnum _, .num _ => by simp [cmpPreId]
  | .alnum a, .alnum b => by
    rw [show cmpPreId (.alnum a) (.alnum b) = cmpList cmpChar a b from rfl,
      cmpList_eq_iff lawful_cmpChar]
    simp

theorem cmpPreId_lt_trans :
    ∀ a b c : PreId, cmpPreId a b = .lt → cmpPreId b c = .lt → cmpPreId a c = .lt
  | .num a, .num b, .num c, hab, hbc => lawful_cmpNat.lt_trans hab hbc
  | .num _, .num _, .alnum _, _, _ => rfl
  | .num _, .alnum _, .num _, _, hbc => Ordering.noConfusion hbc
  | .num _, .alnum _, .alnum _, _, _ => rfl
  | .alnum _, .num _, _, hab, _ => Ordering.noConfusion hab
  | .alnum _, .alnum _, .num _, _, hbc => Ordering.noConfusion hbc
  | .alnum a, .alnum b, .alnum c, hab, hbc => cmpList_lt_trans lawful_cmpChar a b c hab hbc

theorem lawful_cmpPreId : LawfulCmp cmpPreId :=
  ⟨cmpPreId_swap, cmpPreId_eq_iff, fun {a b c} => cmpPreId_lt_trans a b c⟩

/-- Modelled from the spec: comparison of pre-release qualifier lists.
A release (empty list) ranks above every pre-release; two pre-releases
compare identifier by identifier, a strict prefix ranking below. -/
def cmpPre (p q : List PreId) : Ordering :=
  match p, q with
  | [], [] => .eq
  | [], _ :: _ => .gt
  | _ :: _, [] => .lt
  | a :: as, b :: bs => cmpList cmpPreId (a :: as) (b :: bs)

theorem cmpPre_swap : ∀ a b : List PreId, cmpPre a b = (cmpPre b a).swap
  | [], [] => rfl
  | [], _ :: _ => rfl
  | _ :: _, [] => rfl
  | a :: as, b :: bs => cmpList_swap lawful_cmpPreId (a :: as) (b :: bs)

theorem cmpPre_eq_iff : ∀ a b : List PreId, cmpPre a b = .eq ↔ a = b
  | [], [] => by simp [cmpPre]
  | [], _ :: _ => by simp [cmpPre]
  | _ :: _, [] => by simp [cmpPre]
  | a :: as, b :: bs => cmpList_eq_iff lawful_cmpPreId (a :: as) (b :: bs)

theorem cmpPre_lt_trans :
    ∀ a b c : List PreId, cmpPre a b = .lt → cmpPre b c = .lt → cmpPre a c = .lt
  | [], [], _, hab, _ => Ordering.noConfusion hab
  | [], _ :: _, _, hab, _ => Ordering.noConfusion hab
  | _ :: _, [], [], _, hbc => Ordering.noConfusion hbc
  | _ :: _, [], _ :: _, _, hbc => Ordering.noConfusion hbc
  | _ :: _, _ :: _, [], _, _ => rfl
  | a :: as, b :: bs, c :: cs, hab, hbc =>
    cmpList_lt_trans lawful_cmpPreId (a :: as) (b :: bs) (c :: cs) hab hbc

theorem lawful_cmpPre : LawfulCmp cmpPre :=
  ⟨cmpPre_swap, cmpPre_eq_iff, fun {a b c} => cmpPre_lt_trans a b c⟩

/-- Modelled from the spec (§3 "Parsed Version"): a parsed semantic
version.  `seg0`, `seg1`, `seg2` are the major, minor and patch
components with missing components read as zero; `si` records how many
components the original string specified (1, 2 or 3); `pre` holds the
pre-release qualifiers. -/
structure SemVer : Type where
  seg0 : Nat
  seg1 : Nat
  seg2 : Nat
  si : Nat
  pre : List PreId
deriving DecidableEq

/-- The precedence-relevant key of a version: the number of components
the original string specified does not participate in precedence. -/
def vkey (v : SemVer) : Nat × (Nat × (Nat × List PreId)) :=
  (v.seg0, (v.seg1, (v.seg2, v.pre)))

/-- Comparison on precedence keys. -/
def keyCmp : Nat × (Nat × (Nat × List PreId)) → Nat × (Nat × (Nat × List PreId)) → Ordering :=
  cmpProd cmpNat (cmpProd cmpNat (cmpProd cmpNat cmpPre))

theorem lawful_keyCmp : LawfulCmp keyCmp :=
  lawful_cmpProd lawful_cmpNat
    (lawful_cmpProd lawful_cmpNat (lawful_cmpProd lawful_cmpNat lawful_cmpPre))

/-- Modelled from the spec: total ordering of parsed versions under
standard semantic-version precedence (major, minor, patch, pre-release
qualifiers). -/
def versionCompare (v w : SemVer) : Ordering :=
  keyCmp (vkey v) (vkey w)

theorem versionCompare_swap (v w : SemVer) :
    versionCompare v w = (versionCompare w v).swap :=
  lawful_keyCmp.swap_eq _ _

theorem versionCompare_eq_iff (v w : SemVer) :
    versionCompare v w = .eq ↔ vkey v = vkey w :=
  lawful_keyCmp.eq_iff _ _

theorem versionCompare_refl (v : SemVer) : versionCompare v v = .eq :=
  lawful_keyCmp.refl _

/-- The descending-sort relation used by the resolver: `v` is not below
`w`. -/
def vGE (v w : SemVer) : Prop := versionCompare v w ≠ .lt

instance : DecidableRel vGE := fun v w =>
  inferInstanceAs (Decidable (versionCompare v w ≠ .lt))

instance : IsTotal SemVer vGE := by
  constructor
  intro a b
  by_cases h : versionCompare a b = .lt
  · right
    intro h2
    rw [versionCompare_swap b a, h] at h2
    exact Ordering.noConfusion h2
  · left
    exact h

instance : IsTrans SemVer vGE := by
  constructor
  intro a b c hab hbc
  exact lawful_keyCmp.ge_trans hab hbc

/-! ## Parsing version strings, modelled from the spec -/

/-- Digit test for ASCII characters. -/
def isDigitChar (c : Char) : Bool := c.isDigit

/-- Characters allowed in a pre-release identifier: ASCII alphanumerics
and the hyphen. -/
def isIdentChar (c : Char) : Bool := c.isDigit || c.isAlpha || c = '-'

/-- Numeric value of a digit string. -/
def natOfDigits (l : List Char) : Nat :=
  l.foldl (fun n c => 10 * n + (c.toNat - 48)) 0

/-- Modelled from the spec: read one numeric component from the front of
the input.  Standard semantic versions forbid leading zeroes. -/
def parseNumeral (cs : List Char) : Option (Nat × List Char) :=
  match h : cs.takeWhile isDigitChar with
  | [] => none
  | d :: ds =>
    if d = '0' && !ds.isEmpty then none
    else some (natOfDigits (d :: ds), cs.dropWhile isDigitChar)

/-- Modelled from the spec: classify one pre-release identifier.  An
all-digit identifier is numeric (leading zeroes rejected); any other
non-empty identifier over the allowed alphabet is alphanumeric. -/
def classifyIdent (l : List Char) : Option PreId :=
  match l with
  | [] => none
  | d :: ds =>
    if (d :: ds).all isDigitChar then
      if d = '0' && !ds.isEmpty then none
      else some (.num (natOfDigits (d :: ds)))
    else if (d :: ds).all isIdentChar then some (.alnum (d :: ds))
    else none

/-- Modelled from the spec: parse the dot-separated pre-release
qualifiers following the hyphen. -/
def parsePre (cs : List Char) : Option (List PreId) :=
  (cs.splitOn '.').mapM classifyIdent

/-- Modelled from the spec (§3 "Parsed Version"): parse a version string
of one to three dot-separated numeric components, optionally followed by
`-` and pre-release qualifiers.  Missing components are read as zero and
the number of specified components is recorded. -/
def parseVersionChars (cs : List Char) : Option SemVer :=
  match parseNumeral cs with
  | none => none
  | some (a, r1) =>
    match r1 with
    | [] => some ⟨a, 0, 0, 1, []⟩
    | '-' :: r2 => (parsePre r2).map fun p => ⟨a, 0, 0, 1, p⟩
    | '.' :: r2 =>
      match parseNumeral r2 with
      | none => none
      | some (b, r3) =>
        match r3 with
        | [] => some ⟨a, b, 0, 2, []⟩
        | '-' :: r4 => (parsePre r4).map fun p => ⟨a, b, 0, 2, p⟩
        | '.' :: r4 =>
          match parseNumeral r4 with
          | none => none
          | some (c, r5) =>
            match r5 with
            | [] => some ⟨a, b, c, 3, []⟩
            | '-' :: r6 => (parsePre r6).map fun p => ⟨a, b, c, 3, p⟩
            | _ => none
        | _ => none
    | _ => none

/-- Modelled from the spec: `version.NewVersion` of the semantic-version
library, parsing a version-string key into a Parsed Version (`none` is
the library's parse error). -/
def parseVersion (s : String) : Option SemVer :=
  parseVersionChars s.data

/-- Rendering of one pre-release identifier. -/
def preIdString : PreId → String
  | .num n => Nat.repr n
  | .alnum l => String.mk l

/-- Rendering of the pre-release part, including its leading hyphen. -/
def preString (p : List PreId) : String :=
  match p with
  | [] => ""
  | _ => "-" ++ String.intercalate "." (p.map preIdString)

/-- Modelled from the spec: the canonical rendering used by the
library's `Version.String()`: always three numeric components joined by
dots, followed by the pre-release qualifiers; the number of components
the original string specified is not remembered. -/
def versionString (v : SemVer) : String :=
  Nat.repr v.seg0 ++ "." ++ Nat.repr v.seg1 ++ "." ++ Nat.repr v.seg2 ++ preString v.pre

/-- Modelled from the spec (§4.1 step 3 and the glossary): the
pessimistic "~>" constraint check.  The version must not precede the
constraint, must agree with the constraint on every component before the
rightmost specified one, and must not fall below the constraint on the
rightmost specified component. -/
def constraintCheck (c v : SemVer) : Bool :=
  decide (versionCompare v c ≠ .lt) &&
  (match c.si with
   | 1 => decide (c.seg0 ≤ v.seg0)
   | 2 => decide (v.seg0 = c.seg0) && decide (c.seg1 ≤ v.seg1)
   | _ => decide (v.seg0 = c.seg0) && decide (v.seg1 = c.seg1) && decide (c.seg2 ≤ v.seg2))

/-! ## The npm gateway data model (npm.go lines 34-44) -/

/-- Mirror of `NpmDistInfo`: the `dist` object holding the tarball URL. -/
structure NpmDistInfo : Type where
  tarball : String
deriving DecidableEq

/-- Mirror of `NpmVersionInfo`: one version's descriptor. -/
structure NpmVersionInfo : Type where
  dist : NpmDistInfo
deriving DecidableEq

/-- Mirror of `NpmPackageInfo`: the decoded metadata document.  The Go
`map[string]NpmVersionInfo` is embedded as an association list whose
order stands for the (unspecified) map iteration order; a decoded JSON
object has pairwise distinct keys. -/
structure NpmPackageInfo : Type where
  versions : List (String × NpmVersionInfo)
deriving DecidableEq

/-- Association-list lookup, mirroring the Go map index
`npmPackgeInfo.Versions[latestPackageVersion]`. -/
def lookupKey (k : String) : List (String × NpmVersionInfo) → Option NpmVersionInfo
  | [] => none
  | (k', i) :: rest => if k = k' then some i else lookupKey k rest

/-- The error outcomes of the resolution block of `findPackageVersionTar`
(npm.go lines 127-166).  Each constructor carries the message of the Go
error value; `noAcceptable` additionally records the fields of the
accompanying `logger.Error` call (the requested version and the raw
version strings considered), which the source reports via the log, not
inside the error value. -/
inductive NpmErr : Type where
  | versionParse (key : String)
  | constraintParse (constraint : String)
  | noAcceptable (msg : String) (loggedVersion : String) (loggedVersions : List String)
  | locate (msg : String)
deriving DecidableEq

/-- Mirror of the version-collection loop (npm.go lines 127-134): walk
the mapping in iteration order, parse every key, abort on the first
parse failure; on success return the raw keys (`strVersions`) and the
parsed versions (`versions`), both in iteration order. -/
def parseAllVersions : List (String × NpmVersionInfo) → Except NpmErr (List String × List SemVer)
  | [] => .ok ([], [])
  | (k, _) :: rest =>
    match parseVersion k with
    | none => .error (.versionParse k)
    | some v =>
      match parseAllVersions rest with
      | .error e => .error e
      | .ok (strs, vers) => .ok (k :: strs, v :: vers)

/-- Mirror of `sort.Sort(sort.Reverse(version.Collection(versions)))`:
sort the parsed versions in descending precedence order. -/
def sortVersionsDesc (l : List SemVer) : List SemVer :=
  List.insertionSort vGE l

/-- Mirror of the resolution block of `findPackageVersionTar` (npm.go
lines 127-166), as a pure function of the decoded metadata mapping and
the requested version: parse all keys, sort descending, compile the
pessimistic constraint `~> packageVersion`, take the first satisfying
version, and look its canonical rendering back up in the mapping to
return the tarball URL. -/
def resolveCore (name : String) (versionsMap : List (String × NpmVersionInfo))
    (packageVersion : String) : Except NpmErr String :=
  match parseAllVersions versionsMap with
  | .error e => .error e
  | .ok (strVersions, versions) =>
    let sorted := sortVersionsDesc versions
    match parseVersion packageVersion with
    | none => .error (.constraintParse packageVersion)
    | some c =>
      match sorted.find? (fun v => constraintCheck c v) with
      | none =>
        .error (.noAcceptable
          ("unable to find acceptable version for provided: " ++ packageVersion)
          packageVersion strVersions)
      | some v =>
        let latestPackageVersion := versionString v
        match lookupKey latestPackageVersion versionsMap with
        | none =>
          .error (.locate
            ("unable to location packageVersion " ++ packageVersion ++ " for package " ++ name))
        | some packageVersionInfo => .ok packageVersionInfo.dist.tarball

/-! ## The network stages (npm.go lines 85-205) -/

/-- An HTTP response as the transport delivers it: a status code and a
body.  `downloadPackageTar` never reads the status code. -/
structure HttpResponse : Type where
  statusCode : Nat
  body : List Nat
deriving DecidableEq

/-- Errors of the composed download, either an I/O-style error from a
library call (carrying its message) or a resolution error. -/
inductive DownloadErr : Type where
  | io (msg : String)
  | resolve (e : NpmErr)
deriving DecidableEq

/-- The temporary file returned by `downloadPackageTar`: an identity
(allocated by `ioutil.TempFile`) and the bytes written into it. -/
structure TarFile : Type where
  fid : Nat
  contents : List Nat
deriving DecidableEq

/-- Outcomes of the effectful library calls inside the metadata fetch of
`findPackageVersionTar` (npm.go lines 94-125): request construction,
transport, body read, and JSON decoding. -/
structure MetadataEnv : Type where
  metaNewRequestErr : Option String
  metaDoResult : Except String HttpResponse
  readAllErr : Option String
  unmarshal : List Nat → Except String NpmPackageInfo

/-- Outcomes of the effectful library calls inside `downloadPackageTar`
(npm.go lines 170-196): request construction, transport, temp-file
allocation (returning the file identity) and the body copy.
`copyPartial` is whatever prefix of the body an interrupted copy left in
the file. -/
structure DownloadEnv : Type where
  tarNewRequestErr : Option String
  tarDoResult : Except String HttpResponse
  tempFileResult : Except String Nat
  copyErr : Option String
  copyPartial : List Nat

/-- Mirror of `findPackageVersionTar` (npm.go lines 85-168): the chain of
metadata-fetch stages, each failure returning the zero-valued URL and
the error, followed by the pure resolution block. -/
def findPackageVersionTar (menv : MetadataEnv) (name packageVersion : String) :
    String × Option DownloadErr :=
  match menv.metaNewRequestErr with
  | some e => ("", some (.io e))
  | none =>
    match menv.metaDoResult with
    | .error e => ("", some (.io e))
    | .ok resp =>
      match menv.readAllErr with
      | some e => ("", some (.io e))
      | none =>
        match menv.unmarshal resp.body with
        | .error e => ("", some (.io e))
        | .ok npmPackgeInfo =>
          match resolveCore name npmPackgeInfo.versions packageVersion with
          | .error e => ("", some (.resolve e))
          | .ok tarUrl => (tarUrl, none)

/-- Mirror of `downloadPackageTar` (npm.go lines 170-196).  Note the
final lines of the source: `_, err = io.Copy(packageTarFile, resp.Body);
return` — on a copy failure the already-created temp file is returned
together with the error. -/
def downloadPackageTar (denv : DownloadEnv) (packageTarURL : String) :
    Option TarFile × Option DownloadErr :=
  match denv.tarNewRequestErr with
  | some e => (none, some (.io e))
  | none =>
    match denv.tarDoResult with
    | .error e => (none, some (.io e))
    | .ok resp =>
      match denv.tempFileResult with
      | .error e => (none, some (.io e))
      | .ok fid =>
        match denv.copyErr with
        | some e => (some ⟨fid, denv.copyPartial⟩, some (.io e))
        | none => (some ⟨fid, resp.body⟩, none)

/-- Mirror of `DownloadPackage` (npm.go lines 198-205): resolve, then
download; a resolution failure short-circuits with a nil file. -/
def DownloadPackage (menv : MetadataEnv) (denv : DownloadEnv) (name version : String) :
    Option TarFile × Option DownloadErr :=
  match findPackageVersionTar menv name version with
  | (_, some e) => (none, some e)
  | (tarUrl, none) => downloadPackageTar denv tarUrl

/-! ## URL construction (npm.go lines 51-55 and 67-71) -/

/-- The parts of a Go `url.URL` relevant to `getPackageURL`. -/
structure GoURL : Type where
  scheme : String
  host : String
  path : String
deriving DecidableEq

/-- Mirror of `NewNpmGateway`'s URL normalization (npm.go line 71):
`parsedUrl.Scheme = "https"`. -/
def normalizeRegistryURL (u : GoURL) : GoURL :=
  { u with scheme := "https" }

/-- Mirror of `getPackageURL` (npm.go lines 51-55): copy the stored URL
and set its path to the package name. -/
def getPackageURL (base : GoURL) (packageName : String) : GoURL :=
  { base with path := packageName }

/-- Mirror of Go's `url.URL.String()` for scheme-and-host URLs: a slash
is inserted before a non-empty path that does not already start with
one. -/
def urlString (u : GoURL) : String :=
  u.scheme ++ "://" ++ u.host ++
    (match u.path.data with
     | [] => ""
     | ch :: _ => if ch = '/' then u.path else "/" ++ u.path)

/-! ## Helper lemmas -/

theorem vkey_fields {v w : SemVer} (h : vkey v = vkey w) :
    v.seg0 = w.seg0 ∧ v.seg1 = w.seg1 ∧ v.seg2 = w.seg2 ∧ v.pre = w.pre := by
  unfold vkey at h
  simp only [Prod.mk.injEq] at h
  exact ⟨h.1, h.2.1, h.2.2.1, h.2.2.2⟩

theorem versionString_congr {v w : SemVer} (h : versionCompare v w = .eq) :
    versionString v = versionString w := by
  obtain ⟨h0, h1, h2, h3⟩ := vkey_fields ((versionCompare_eq_iff v w).mp h)
  unfold versionString
  rw [h0, h1, h2, h3]

theorem parseAll_ok {l : List (String × NpmVersionInfo)}
    (h : ∀ k ∈ l.map Prod.fst, (parseVersion k).isSome) :
    parseAllVersions l = .ok (l.map Prod.fst, l.filterMap fun p => parseVersion p.1) := by
  induction l with
  | nil => rfl
  | cons p rest ih =>
    obtain ⟨k, i⟩ := p
    have hk : (parseVersion k).isSome := h k (by simp)
    rcases hv : parseVersion k with _ | v
    · rw [hv] at hk
      simp at hk
    · simp only [parseAllVersions, hv]
      rw [ih fun k' hk' => h k' (by simp; right; simpa using hk')]
      simp [List.filterMap_cons, hv]

theorem parseAll_error {l : List (String × NpmVersionInfo)} {k : String}
    (hk : k ∈ l.map Prod.fst) (hbad : parseVersion k = none) :
    ∃ k', k' ∈ l.map Prod.fst ∧ parseVersion k' = none ∧
      parseAllVersions l = .error (.versionParse k') := by
  induction l with
  | nil => simp at hk
  | cons p rest ih =>
    obtain ⟨k0, i0⟩ := p
    rcases hv : parseVersion k0 with _ | v
    · exact ⟨k0, by simp, hv, by simp [parseAllVersions, hv]⟩
    · have hk' : k ∈ rest.map Prod.fst := by
        rcases (by simpa using hk : k = k0 ∨ k ∈ rest.map Prod.fst) with h | h
        · rw [h, hv] at hbad
          exact Option.noConfusion hbad
        · exact h
      obtain ⟨k', hm, hb, he⟩ := ih hk'
      refine ⟨k', by simp [hm], hb, ?_⟩
      simp [parseAllVersions, hv, he]

theorem lookupKey_eq_none_iff {k : String} {l : List (String × NpmVersionInfo)} :
    lookupKey k l = none ↔ k ∉ l.map Prod.fst := by
  induction l with
  | nil => simp [lookupKey]
  | cons p rest ih =>
    obtain ⟨k0, i0⟩ := p
    simp only [lookupKey]
    by_cases h : k = k0
    · simp [h]
    · simp [h, ih]

theorem lookupKey_mem {k : String} {i : NpmVersionInfo} {l : List (String × NpmVersionInfo)}
    (h : lookupKey k l = some i) : (k, i) ∈ l := by
  induction l with
  | nil => simp [lookupKey] at h
  | cons p rest ih =>
    obtain ⟨k0, i0⟩ := p
    simp only [lookupKey] at h
    by_cases hk : k = k0
    · rw [if_pos hk] at h
      injection h with h
      simp [hk, h]
    · rw [if_neg hk] at h
      simp [ih h]

theorem lookupKey_of_mem_nodup {k : String} {i : NpmVersionInfo}
    {l : List (String × NpmVersionInfo)}
    (hm : (k, i) ∈ l) (hnd : (l.map Prod.fst).Nodup) : lookupKey k l = some i := by
  induction l with
  | nil => simp at hm
  | cons p rest ih =>
    obtain ⟨k0, i0⟩ := p
    simp only [List.map_cons, List.nodup_cons] at hnd
    rcases List.mem_cons.mp hm with h | h
    · injection h with h1 h2
      subst h1
      subst h2
      simp [lookupKey]
    · have hk : k ≠ k0 := by
        intro hkk
        subst hkk
        exact hnd.1 (by simpa using List.mem_map_of_mem Prod.fst h)
      simp only [lookupKey, if_neg hk]
      exact ih h hnd.2

theorem lookupKey_perm {l₁ l₂ : List (String × NpmVersionInfo)}
    (hperm : List.Perm l₁ l₂) (hnd : (l₁.map Prod.fst).Nodup) (k : String) :
    lookupKey k l₁ = lookupKey k l₂ := by
  induction hperm with
  | nil => rfl
  | cons x h ih =>
    obtain ⟨k0, i0⟩ := x
    simp only [lookupKey]
    by_cases hk : k = k0
    · simp [hk]
    · simp only [if_neg hk]
      exact ih (by simpa using (List.nodup_cons.mp (by simpa using hnd)).2)
  | swap x y l =>
    obtain ⟨kx, ix⟩ := x
    obtain ⟨ky, iy⟩ := y
    have hxy : ky ≠ kx := by
      simp only [List.map_cons, List.nodup_cons, List.mem_cons] at hnd
      exact fun h => hnd.1 (Or.inl h)
    simp only [lookupKey]
    by_cases h1 : k = ky <;> by_cases h2 : k = kx
    · exact absurd (h1.symm.trans h2) hxy
    · simp [h1, h2, hxy, Ne.symm hxy]
    · simp [h1, h2, hxy, Ne.symm hxy]
    · simp [h1, h2, hxy, Ne.symm hxy]
  | trans h1 h2 ih1 ih2 =>
    have hndm := ((h1.map Prod.fst).nodup_iff).mp hnd
    exact (ih1 hnd).trans (ih2 hndm)

theorem constraintCheck_congr {c v w : SemVer} (h : versionCompare v w = .eq) :
    constraintCheck c v = constraintCheck c w := by
  obtain ⟨h0, h1, h2, h3⟩ := vkey_fields ((versionCompare_eq_iff v w).mp h)
  have hvc : versionCompare v c = versionCompare w c := by
    unfold versionCompare vkey
    rw [h0, h1, h2, h3]
  unfold constraintCheck
  rw [hvc, h0, h1, h2]

/-- The sorted candidate list is a permutation of the parsed versions. -/
theorem sortVersionsDesc_perm (l : List SemVer) :
    List.Perm (sortVersionsDesc l) l :=
  List.perm_insertionSort vGE l

/-- The sorted candidate list is pairwise descending. -/
theorem sortVersionsDesc_pairwise (l : List SemVer) :
    List.Pairwise vGE (sortVersionsDesc l) :=
  List.sorted_insertionSort vGE l

/-- The first satisfying element of a pairwise-descending list is maximal
among all satisfying elements of the list. -/
theorem find?_sorted_max {p : SemVer → Bool} {l : List SemVer} {v : SemVer}
    (hs : List.Pairwise vGE l) (hf : l.find? p = some v) :
    ∀ w ∈ l, p w = true → versionCompare w v ≠ .gt := by
  induction l with
  | nil => simp at hf
  | cons x xs ih =>
    obtain ⟨hx, hxs⟩ := List.pairwise_cons.mp hs
    rcases hpx : p x with _ | _
    · rw [List.find?_cons_of_neg _ (by simp [hpx])] at hf
      intro w hw hpw
      rcases List.mem_cons.mp hw with h | h
      · rw [h] at hpw
        rw [hpw] at hpx
        exact Bool.noConfusion hpx
      · exact ih hxs hf w h hpw
    · rw [List.find?_cons_of_pos _ (by simp [hpx])] at hf
      injection hf with hf
      intro w hw hpw
      rcases List.mem_cons.mp hw with h | h
      · rw [h, ← hf, versionCompare_refl]
        simp
      · intro hgt
        refine hx w h ?_
        rw [← hf] at hgt
        rw [versionCompare_swap x w, hgt]
        rfl

/-- Maximal satisfying elements of permutation-equal lists compare
equal. -/
theorem max_sat_eq {p : SemVer → Bool} {v₁ v₂ : SemVer} {l₁ l₂ : List SemVer}
    (hp : List.Perm l₁ l₂)
    (h1 : v₁ ∈ l₁) (hp1 : p v₁ = true)
    (hmax1 : ∀ w ∈ l₁, p w = true → versionCompare w v₁ ≠ .gt)
    (h2 : v₂ ∈ l₂) (hp2 : p v₂ = true)
    (hmax2 : ∀ w ∈ l₂, p w = true → versionCompare w v₂ ≠ .gt) :
    versionCompare v₁ v₂ = .eq := by
  have h21 : v₂ ∈ l₁ := hp.mem_iff.mpr h2
  have h12 : v₁ ∈ l₂ := hp.mem_iff.mp h1
  have a1 := hmax1 v₂ h21 hp2
  have a2 := hmax2 v₁ h12 hp1
  rcases h : versionCompare v₁ v₂ with _ | _ | _
  · refine absurd ?_ a1
    rw [versionCompare_swap v₂ v₁, h]
    rfl
  · rfl
  · exact absurd h a2

/-- The caller-visible outcome of a resolution: the artifact location on
success, or the classification of the error on failure. -/
inductive ResolveOutcome : Type where
  | ok (url : String)
  | versionParseErr
  | constraintErr
  | noMatchErr
  | locateErr
deriving DecidableEq

/-- Collapse a resolution result to its caller-visible outcome. -/
def resolveOutcome : Except NpmErr String → ResolveOutcome
  | .ok u => .ok u
  | .error (.versionParse _) => .versionParseErr
  | .error (.constraintParse _) => .constraintErr
  | .error (.noAcceptable _ _ _) => .noMatchErr
  | .error (.locate _) => .locateErr

/-! ## Claim theorems -/

/-- C5: resolution is deterministic.  For the same metadata document
(the same key-value pairs of a decoded JSON object, whose keys are
pairwise distinct, presented in any two iteration orders) and the same
constraint string, the resolution logic of `findPackageVersionTar`
yields the same caller-visible result: the same artifact location on
success and the same error classification on failure.  Iterating the Go
map in a different order permutes both the parse loop and the input of
the (unstable) sort, so the permutation quantifies over all sort
behaviours on versions that compare equal. -/
theorem claim_C5 (name cs : String) (l₁ l₂ : List (String × NpmVersionInfo))
    (hperm : List.Perm l₁ l₂) (hnd : (l₁.map Prod.fst).Nodup) :
    resolveOutcome (resolveCore name l₁ cs) = resolveOutcome (resolveCore name l₂ cs) := by
  by_cases hbad : ∃ k ∈ l₁.map Prod.fst, parseVersion k = none
  · obtain ⟨k, hk, hb⟩ := hbad
    obtain ⟨k1, _, _, he1⟩ := parseAll_error hk hb
    have hk2 : k ∈ l₂.map Prod.fst := ((hperm.map Prod.fst).mem_iff).mp hk
    obtain ⟨k2, _, _, he2⟩ := parseAll_error hk2 hb
    simp [resolveCore, he1, he2, resolveOutcome]
  · push_neg at hbad
    have hall1 : ∀ k ∈ l₁.map Prod.fst, (parseVersion k).isSome := by
      intro k hk
      rcases h : parseVersion k with _ | v
      · exact absurd h (hbad k hk)
      · rfl
    have hall2 : ∀ k ∈ l₂.map Prod.fst, (parseVersion k).isSome := by
      intro k hk
      exact hall1 k (((hperm.map Prod.fst).mem_iff).mpr hk)
    have e1 := parseAll_ok hall1
    have e2 := parseAll_ok hall2
    have hv : List.Perm (l₁.filterMap fun p => parseVersion p.1)
        (l₂.filterMap fun p => parseVersion p.1) := hperm.filterMap _
    rcases hc : parseVersion cs with _ | c
    · simp [resolveCore, e1, e2, hc, resolveOutcome]
    · have hsp : List.Perm (sortVersionsDesc (l₁.filterMap fun p => parseVersion p.1))
          (sortVersionsDesc (l₂.filterMap fun p => parseVersion p.1)) :=
        ((sortVersionsDesc_perm _).trans hv).trans (sortVersionsDesc_perm _).symm
      rcases hf1 : (sortVersionsDesc (l₁.filterMap fun p => parseVersion p.1)).find?
          (fun v => constraintCheck c v) with _ | v₁
      · have hf2 : (sortVersionsDesc (l₂.filterMap fun p => parseVersion p.1)).find?
            (fun v => constraintCheck c v) = none := by
          rw [List.find?_eq_none] at hf1 ⊢
          intro w hw
          exact hf1 w (hsp.mem_iff.mpr hw)
        simp [resolveCore, e1, e2, hc, hf1, hf2, resolveOutcome]
      · have hp1 : constraintCheck c v₁ = true := List.find?_some hf1
        have hm1 := List.mem_of_find?_eq_some hf1
        rcases hf2 : (sortVersionsDesc (l₂.filterMap fun p => parseVersion p.1)).find?
            (fun v => constraintCheck c v) with _ | v₂
        · rw [List.find?_eq_none] at hf2
          exact absurd hp1 (by simpa using hf2 v₁ (hsp.mem_iff.mp hm1))
        · have hp2 : constraintCheck c v₂ = true := List.find?_some hf2
          have hm2 := List.mem_of_find?_eq_some hf2
          have hmax1 := find?_sorted_max (sortVersionsDesc_pairwise _) hf1
          have hmax2 := find?_sorted_max (sortVersionsDesc_pairwise _) hf2
          have heq : versionCompare v₁ v₂ = .eq :=
            max_sat_eq hsp hm1 hp1 hmax1 hm2 hp2 hmax2
          have hstr := versionString_congr heq
          have hlook : lookupKey (versionString v₁) l₁ = lookupKey (versionString v₂) l₂ := by
            rw [hstr]
            exact lookupKey_perm hperm hnd _
          rcases hL1 : lookupKey (versionString v₁) l₁ with _ | info₁
          · have hL2 : lookupKey (versionString v₂) l₂ = none := by
              rw [← hlook, hL1]
            simp [resolveCore, e1, e2, hc, hf1, hf2, hL1, hL2, resolveOutcome]
          · have hL2 : lookupKey (versionString v₂) l₂ = some info₁ := by
              rw [← hlook, hL1]
            simp [resolveCore, e1, e2, hc, hf1, hf2, hL1, hL2, resolveOutcome]

/-- Extraction of the pessimistic check for a three-component
constraint. -/
theorem constraintCheck_si3 {c v : SemVer} (hsi : c.si = 3)
    (h : constraintCheck c v = true) :
    versionCompare v c ≠ .lt ∧ v.seg0 = c.seg0 ∧ v.seg1 = c.seg1 ∧ c.seg2 ≤ v.seg2 := by
  unfold constraintCheck at h
  rw [hsi] at h
  have h' : (decide (versionCompare v c ≠ .lt) &&
      (decide (v.seg0 = c.seg0) && decide (v.seg1 = c.seg1) && decide (c.seg2 ≤ v.seg2))) =
      true := h
  simp only [Bool.and_eq_true, decide_eq_true_eq] at h'
  exact ⟨h'.1, h'.2.1.1, h'.2.1.2, h'.2.2⟩

/-- C1: for a well-formed metadata document and a three-component
constraint string, whenever the resolution logic of
`findPackageVersionTar` returns an artifact location, that location
belongs to a document entry whose key is the canonical rendering of a
version that is not below the constraint and lies in the constraint's
minor series (same major and same minor component); in particular no
version outside that series is ever returned, however much greater. -/
theorem claim_C1 (name cs url : String) (c : SemVer)
    (l : List (String × NpmVersionInfo))
    (hwf : ∀ k ∈ l.map Prod.fst, (parseVersion k).isSome)
    (hc : parseVersion cs = some c) (hsi : c.si = 3)
    (hok : resolveCore name l cs = .ok url) :
    ∃ v info, (versionString v, info) ∈ l ∧ info.dist.tarball = url ∧
      versionCompare v c ≠ .lt ∧ v.seg0 = c.seg0 ∧ v.seg1 = c.seg1 := by
  have e := parseAll_ok hwf
  simp only [resolveCore, e, hc] at hok
  split at hok
  · simp at hok
  · rename_i v hfind
    rcases hL : lookupKey (versionString v) l with _ | info
    · rw [hL] at hok
      simp at hok
    · rw [hL] at hok
      have hok2 : Except.ok info.dist.tarball = (Except.ok url : Except NpmErr String) := hok
      injection hok2 with hok3
      have hp : constraintCheck c v = true := List.find?_some hfind
      obtain ⟨h1, h2, h3, _⟩ := constraintCheck_si3 hsi hp
      exact ⟨v, info, lookupKey_mem hL, hok3, h1, h2, h3⟩

deriving instance DecidableEq for Except

/-- Version descriptors used by the concrete witnesses. -/
def wInfo1 : NpmVersionInfo := ⟨⟨"u1"⟩⟩

def wInfo2 : NpmVersionInfo := ⟨⟨"u2"⟩⟩

def wInfo3 : NpmVersionInfo := ⟨⟨"u3"⟩⟩

def wInfo4 : NpmVersionInfo := ⟨⟨"u4"⟩⟩

/-- Metadata document for the C1 witness: two versions inside the 1.2
series and a numerically greater 2.0.0 outside it. -/
def wDocC1 : List (String × NpmVersionInfo) :=
  [("1.2.3", wInfo1), ("1.2.9", wInfo2), ("2.0.0", wInfo4)]

theorem claim_C1_witness :
    resolveCore "pkg" wDocC1 "1.2.3" = .ok "u2" ∧
    (∃ v info, (versionString v, info) ∈ wDocC1 ∧ info.dist.tarball = "u2" ∧
      versionCompare v ⟨1, 2, 3, 3, []⟩ ≠ .lt ∧ v.seg0 = 1 ∧ v.seg1 = 2) :=
  ⟨by decide,
   claim_C1 "pkg" "1.2.3" "u2" ⟨1, 2, 3, 3, []⟩ wDocC1 (by decide) (by decide) rfl (by decide)⟩

/-- C6: if any key of the metadata mapping fails to parse as a semantic
version, the resolution logic of `findPackageVersionTar` fails with the
version-parse error for some malformed key (the first one in iteration
order) and returns no artifact location, regardless of how many
well-formed keys would have satisfied the constraint. -/
theorem claim_C6 (name cs k : String) (l : List (String × NpmVersionInfo))
    (hk : k ∈ l.map Prod.fst) (hbad : parseVersion k = none) :
    ∃ k', k' ∈ l.map Prod.fst ∧ parseVersion k' = none ∧
      resolveCore name l cs = .error (.versionParse k') := by
  obtain ⟨k', hm, hb, he⟩ := parseAll_error hk hbad
  exact ⟨k', hm, hb, by simp [resolveCore, he]⟩

theorem claim_C6_witness :
    "not-a-version" ∈ ([("1.0.0", wInfo1), ("not-a-version", wInfo2)].map Prod.fst) ∧
    parseVersion "not-a-version" = none ∧
    (∃ k', k' ∈ ([("1.0.0", wInfo1), ("not-a-version", wInfo2)].map Prod.fst) ∧
      parseVersion k' = none ∧
      resolveCore "pkg" [("1.0.0", wInfo1), ("not-a-version", wInfo2)] "1.0.0" =
        .error (.versionParse k')) :=
  ⟨by decide, by decide,
   claim_C6 "pkg" "1.0.0" "not-a-version" [("1.0.0", wInfo1), ("not-a-version", wInfo2)]
     (by decide) (by decide)⟩

/-- C7 is refuted as stated: on the empty metadata mapping with the
non-compiling constraint string "not-a-version", resolution fails with
the constraint-compilation error, not with the no-matching-version
error. -/
theorem claim_C7_counterexample :
    resolveCore "pkg" [] "not-a-version" = .error (.constraintParse "not-a-version") ∧
    ∀ m lv lvs, resolveCore "pkg" [] "not-a-version" ≠ .error (.noAcceptable m lv lvs) := by
  have hres : resolveCore "pkg" [] "not-a-version" =
      .error (.constraintParse "not-a-version") := by decide
  refine ⟨hres, ?_⟩
  intro m lv lvs h
  rw [hres] at h
  simp at h

/-- C7 (amended): for every constraint string that does compile into a
pessimistic constraint, resolution over the empty metadata mapping fails
with the no-matching-version error (reporting the constraint and the
empty candidate list), never with any other classification. -/
theorem claim_C7_amended (name cs : String) (c : SemVer) (hc : parseVersion cs = some c) :
    resolveCore name [] cs =
      .error (.noAcceptable ("unable to find acceptable version for provided: " ++ cs) cs []) := by
  simp [resolveCore, parseAllVersions, hc, sortVersionsDesc, List.insertionSort]

theorem claim_C7_amended_witness :
    parseVersion "2.0.0" = some ⟨2, 0, 0, 3, []⟩ ∧
    resolveCore "pkg" [] "2.0.0" =
      .error (.noAcceptable "unable to find acceptable version for provided: 2.0.0" "2.0.0" []) :=
  ⟨by decide, claim_C7_amended "pkg" "2.0.0" ⟨2, 0, 0, 3, []⟩ (by decide)⟩

/-- C9: when the best-matching version's canonical rendering is not
itself a key of the metadata mapping (as happens when the version was
published under a non-canonical key such as "1.2", rendered "1.2.0"),
the post-sort map lookup fails and the resolution logic returns the
"unable to location packageVersion" error instead of that version's
artifact location. -/
theorem claim_C9 (name cs : String) (c v : SemVer)
    (l : List (String × NpmVersionInfo)) (strs : List String) (vers : List SemVer)
    (hparse : parseAllVersions l = .ok (strs, vers))
    (hc : parseVersion cs = some c)
    (hfind : (sortVersionsDesc vers).find? (fun w => constraintCheck c w) = some v)
    (hnokey : versionString v ∉ l.map Prod.fst) :
    resolveCore name l cs =
      .error (.locate ("unable to location packageVersion " ++ cs ++ " for package " ++ name)) := by
  have hlook : lookupKey (versionString v) l = none := lookupKey_eq_none_iff.mpr hnokey
  simp only [resolveCore, hparse, hc, hfind, hlook]

theorem claim_C9_witness :
    parseAllVersions [("1.2", wInfo1)] = .ok (["1.2"], [⟨1, 2, 0, 2, []⟩]) ∧
    parseVersion "1.2" = some ⟨1, 2, 0, 2, []⟩ ∧
    (sortVersionsDesc [⟨1, 2, 0, 2, []⟩]).find?
      (fun w => constraintCheck ⟨1, 2, 0, 2, []⟩ w) = some ⟨1, 2, 0, 2, []⟩ ∧
    versionString ⟨1, 2, 0, 2, []⟩ ∉ ([("1.2", wInfo1)].map Prod.fst) ∧
    resolveCore "pkg" [("1.2", wInfo1)] "1.2" =
      .error (.locate "unable to location packageVersion 1.2 for package pkg") :=
  ⟨by decide, by decide, by decide, by decide,
   claim_C9 "pkg" "1.2" ⟨1, 2, 0, 2, []⟩ ⟨1, 2, 0, 2, []⟩ [("1.2", wInfo1)]
     ["1.2"] [⟨1, 2, 0, 2, []⟩] (by decide) (by decide) (by decide) (by decide)⟩

/-- C2 is refuted as stated: for the well-formed single-entry document
with key "1.2" and constraint "1.2", a version satisfying the
pessimistic constraint exists, yet resolution returns the lookup error
instead of the highest satisfying version's artifact location, because
the canonical rendering "1.2.0" is not a key of the mapping. -/
theorem claim_C2_counterexample :
    (∃ v, parseVersion "1.2" = some v ∧ constraintCheck v v = true) ∧
    resolveCore "pkg" [("1.2", wInfo1)] "1.2" =
      .error (.locate "unable to location packageVersion 1.2 for package pkg") ∧
    ∀ url, resolveCore "pkg" [("1.2", wInfo1)] "1.2" ≠ .ok url := by
  have hres : resolveCore "pkg" [("1.2", wInfo1)] "1.2" =
      .error (.locate "unable to location packageVersion 1.2 for package pkg") := by decide
  refine ⟨⟨⟨1, 2, 0, 2, []⟩, by decide, by decide⟩, hres, ?_⟩
  intro url h
  rw [hres] at h
  exact Except.noConfusion h

/-- C2 (amended): for a well-formed metadata document all of whose keys
are written in canonical form, and a well-formed constraint, if at least
one version satisfies the pessimistic constraint then the resolution
logic of `findPackageVersionTar` returns the artifact location of the
highest satisfying version (the first match on the descending-sorted
candidate list). -/
theorem claim_C2_amended (name cs : String) (c : SemVer)
    (l : List (String × NpmVersionInfo))
    (hnd : (l.map Prod.fst).Nodup)
    (hcanon : ∀ p ∈ l, Option.map versionString (parseVersion p.1) = some p.1)
    (hc : parseVersion cs = some c)
    (hsat : ∃ p ∈ l, ∃ v, parseVersion p.1 = some v ∧ constraintCheck c v = true) :
    ∃ v info, (versionString v, info) ∈ l ∧ constraintCheck c v = true ∧
      (∀ p ∈ l, ∀ w, parseVersion p.1 = some w → constraintCheck c w = true →
        versionCompare w v ≠ .gt) ∧
      resolveCore name l cs = .ok info.dist.tarball := by
  have hwf : ∀ k ∈ l.map Prod.fst, (parseVersion k).isSome := by
    intro k hk
    obtain ⟨p, hp, rfl⟩ := List.mem_map.mp hk
    have hcp := hcanon p hp
    rcases h : parseVersion p.1 with _ | v
    · rw [h] at hcp
      exact Option.noConfusion hcp
    · rfl
  have e := parseAll_ok hwf
  obtain ⟨p₀, hp₀, v₀, hv₀, hchk₀⟩ := hsat
  have hmems : v₀ ∈ sortVersionsDesc (l.filterMap fun p => parseVersion p.1) :=
    (sortVersionsDesc_perm _).mem_iff.mpr (List.mem_filterMap.mpr ⟨p₀, hp₀, hv₀⟩)
  rcases hfind : (sortVersionsDesc (l.filterMap fun p => parseVersion p.1)).find?
      (fun v => constraintCheck c v) with _ | v₁
  · rw [List.find?_eq_none] at hfind
    exact absurd hchk₀ (by simpa using hfind v₀ hmems)
  · have hchk₁ : constraintCheck c v₁ = true := List.find?_some hfind
    have hmem₁ : v₁ ∈ sortVersionsDesc (l.filterMap fun p => parseVersion p.1) :=
      List.mem_of_find?_eq_some hfind
    obtain ⟨p₁, hp₁, hv₁⟩ := List.mem_filterMap.mp ((sortVersionsDesc_perm _).mem_iff.mp hmem₁)
    have hcan₁ := hcanon p₁ hp₁
    rw [hv₁] at hcan₁
    have hstr₁ : versionString v₁ = p₁.1 := by
      injection hcan₁
    have hmem₁' : (versionString v₁, p₁.2) ∈ l := by
      rw [hstr₁]
      exact hp₁
    have hlook : lookupKey (versionString v₁) l = some p₁.2 :=
      lookupKey_of_mem_nodup hmem₁' hnd
    have hmax := find?_sorted_max (sortVersionsDesc_pairwise _) hfind
    refine ⟨v₁, p₁.2, hmem₁', hchk₁, ?_, ?_⟩
    · intro p hp w hw hcw
      refine hmax w ?_ hcw
      exact (sortVersionsDesc_perm _).mem_iff.mpr (List.mem_filterMap.mpr ⟨p, hp, hw⟩)
    · simp only [resolveCore, e, hc, hfind, hlook]

/-- Metadata document of the end-to-end scenario of C2. -/
def wDocC2 : List (String × NpmVersionInfo) :=
  [("1.0.0", wInfo1), ("1.1.0", wInfo2), ("1.1.5", wInfo3), ("2.0.0", wInfo4)]

theorem claim_C2_witness :
    resolveCore "pkg" wDocC2 "1.1.0" = .ok "u3" ∧
    (∃ v info, (versionString v, info) ∈ wDocC2 ∧
      constraintCheck ⟨1, 1, 0, 3, []⟩ v = true ∧
      (∀ p ∈ wDocC2, ∀ w, parseVersion p.1 = some w →
        constraintCheck ⟨1, 1, 0, 3, []⟩ w = true → versionCompare w v ≠ .gt) ∧
      resolveCore "pkg" wDocC2 "1.1.0" = .ok info.dist.tarball) :=
  ⟨by decide,
   claim_C2_amended "pkg" "1.1.0" ⟨1, 1, 0, 3, []⟩ wDocC2 (by decide) (by decide) (by decide)
     ⟨("1.1.5", wInfo3), by decide, ⟨1, 1, 5, 3, []⟩, by decide, by decide⟩⟩

/-- Prefix test on character lists. -/
def startsWithChars : List Char → List Char → Bool
  | [], _ => true
  | _ :: _, [] => false
  | a :: as, b :: bs => a = b && startsWithChars as bs

/-- Substring occurrence test on character lists. -/
def containsChars (pat : List Char) : List Char → Bool
  | [] => startsWithChars pat []
  | c :: ls => startsWithChars pat (c :: ls) || containsChars pat ls

theorem startsWithChars_append (p t : List Char) : startsWithChars p (p ++ t) = true := by
  induction p with
  | nil => rfl
  | cons a as ih => simp [startsWithChars, ih]

theorem containsChars_append_self (l p : List Char) : containsChars p (l ++ p) = true := by
  have hs : startsWithChars p p = true := by
    have := startsWithChars_append p []
    rwa [List.append_nil] at this
  induction l with
  | nil =>
    cases p with
    | nil => rfl
    | cons a as => simp [containsChars, hs]
  | cons c ls ih => simp [containsChars, ih]

/-- C4 is refuted as stated: for the document {"1.0.0"} and constraint
"2.0.0", resolution fails with the no-acceptable-version error, but the
error value handed to the caller carries only the constraint string; the
considered candidate "1.0.0" does not occur in the error message (the
candidate list is only emitted to the log). -/
theorem claim_C4_counterexample :
    resolveCore "pkg" [("1.0.0", wInfo1)] "2.0.0" =
      .error (.noAcceptable "unable to find acceptable version for provided: 2.0.0"
        "2.0.0" ["1.0.0"]) ∧
    containsChars "1.0.0".data
      "unable to find acceptable version for provided: 2.0.0".data = false := by
  constructor
  · decide
  · decide

/-- C4 (amended): when no candidate satisfies the constraint, the
resolution logic fails with the no-acceptable-version error whose error
message contains the originally requested constraint string, while the
full list of raw version strings considered is reported through the
accompanying log record (modelled by the error's logged fields), not
inside the error message handed to the caller. -/
theorem claim_C4_amended (name cs : String) (c : SemVer)
    (l : List (String × NpmVersionInfo))
    (hwf : ∀ k ∈ l.map Prod.fst, (parseVersion k).isSome)
    (hc : parseVersion cs = some c)
    (hnosat : ∀ p ∈ l, ∀ v, parseVersion p.1 = some v → constraintCheck c v = false) :
    resolveCore name l cs =
      .error (.noAcceptable ("unable to find acceptable version for provided: " ++ cs)
        cs (l.map Prod.fst)) ∧
    containsChars cs.data
      ("unable to find acceptable version for provided: " ++ cs).data = true := by
  constructor
  · have e := parseAll_ok hwf
    have hfind : (sortVersionsDesc (l.filterMap fun p => parseVersion p.1)).find?
        (fun v => constraintCheck c v) = none := by
      rw [List.find?_eq_none]
      intro w hw
      obtain ⟨p, hp, hpv⟩ :=
        List.mem_filterMap.mp ((sortVersionsDesc_perm _).mem_iff.mp hw)
      simp [hnosat p hp w hpv]
    simp only [resolveCore, e, hc, hfind]
  · rw [String.data_append]
    exact containsChars_append_self _ _

theorem claim_C4_amended_witness :
    resolveCore "pkg" [("1.0.0", wInfo1), ("1.1.0", wInfo2)] "3.0.0" =
      .error (.noAcceptable "unable to find acceptable version for provided: 3.0.0"
        "3.0.0" ["1.0.0", "1.1.0"]) ∧
    containsChars "3.0.0".data
      "unable to find acceptable version for provided: 3.0.0".data = true :=
  claim_C4_amended "pkg" "3.0.0" ⟨3, 0, 0, 3, []⟩ [("1.0.0", wInfo1), ("1.1.0", wInfo2)]
    (by decide) (by decide) (by decide)

/-- Metadata environment whose stages all succeed and decode a document
that resolves "1.0.0" to the tarball "u1". -/
def wMetaEnvOk : MetadataEnv :=
  ⟨none, .ok ⟨200, []⟩, none, fun _ => .ok ⟨[("1.0.0", wInfo1)]⟩⟩

/-- Download environment whose body copy fails after the temp file was
created. -/
def wDownloadEnvCopyFail : DownloadEnv :=
  ⟨none, .ok ⟨200, [1, 2, 3]⟩, .ok 7, some "connection reset during copy", [1]⟩

/-- Download environment whose temp-file allocation fails. -/
def wDownloadEnvTmpFail : DownloadEnv :=
  ⟨none, .ok ⟨200, [5]⟩, .error "no space left on device", none, []⟩

/-- C3 is refuted as stated: when the body-to-file copy fails partway
through, `DownloadPackage` hands the caller the temp-file handle
together with the error. -/
theorem claim_C3_counterexample :
    (DownloadPackage wMetaEnvOk wDownloadEnvCopyFail "pkg" "1.0.0").1.isSome = true ∧
    (DownloadPackage wMetaEnvOk wDownloadEnvCopyFail "pkg" "1.0.0").2.isSome = true := by
  constructor
  · decide
  · decide

/-- C3 (amended): a failure in any stage before the body copy (metadata
fetch, resolution, request construction, transport, temp-file creation)
leaves the returned handle nil; only a failing `io.Copy` makes
`DownloadPackage` return a non-nil handle together with an error. -/
theorem claim_C3_amended (menv : MetadataEnv) (denv : DownloadEnv) (name ver : String) :
    (denv.copyErr = none →
      (DownloadPackage menv denv name ver).2.isSome = true →
      (DownloadPackage menv denv name ver).1 = none) ∧
    ((DownloadPackage menv denv name ver).1.isSome = true →
      (DownloadPackage menv denv name ver).2.isSome = true →
      denv.copyErr.isSome = true) := by
  constructor
  · intro hcopy
    rcases h1 : menv.metaNewRequestErr with _ | e1
    · rcases h2 : menv.metaDoResult with e2 | resp
      · simp [DownloadPackage, findPackageVersionTar, downloadPackageTar, h1, h2]
      · rcases h3 : menv.readAllErr with _ | e3
        · rcases h4 : menv.unmarshal resp.body with e4 | info
          · simp [DownloadPackage, findPackageVersionTar, downloadPackageTar, h1, h2, h3, h4]
          · rcases h5 : resolveCore name info.versions ver with e5 | url
            · simp [DownloadPackage, findPackageVersionTar, downloadPackageTar,
                h1, h2, h3, h4, h5]
            · rcases h6 : denv.tarNewRequestErr with _ | e6
              · rcases h7 : denv.tarDoResult with e7 | resp2
                · simp [DownloadPackage, findPackageVersionTar, downloadPackageTar,
                    h1, h2, h3, h4, h5, h6, h7]
                · rcases h8 : denv.tempFileResult with e8 | fid
                  · simp [DownloadPackage, findPackageVersionTar, downloadPackageTar,
                      h1, h2, h3, h4, h5, h6, h7, h8]
                  · simp [DownloadPackage, findPackageVersionTar, downloadPackageTar,
                      h1, h2, h3, h4, h5, h6, h7, h8, hcopy]
              · simp [DownloadPackage, findPackageVersionTar, downloadPackageTar,
                  h1, h2, h3, h4, h5, h6]
        · simp [DownloadPackage, findPackageVersionTar, downloadPackageTar, h1, h2, h3]
    · simp [DownloadPackage, findPackageVersionTar, downloadPackageTar, h1]
  · rcases h1 : menv.metaNewRequestErr with _ | e1
    · rcases h2 : menv.metaDoResult with e2 | resp
      · simp [DownloadPackage, findPackageVersionTar, downloadPackageTar, h1, h2]
      · rcases h3 : menv.readAllErr with _ | e3
        · rcases h4 : menv.unmarshal resp.body with e4 | info
          · simp [DownloadPackage, findPackageVersionTar, downloadPackageTar, h1, h2, h3, h4]
          · rcases h5 : resolveCore name info.versions ver with e5 | url
            · simp [DownloadPackage, findPackageVersionTar, downloadPackageTar,
                h1, h2, h3, h4, h5]
            · rcases h6 : denv.tarNewRequestErr with _ | e6
              · rcases h7 : denv.tarDoResult with e7 | resp2
                · simp [DownloadPackage, findPackageVersionTar, downloadPackageTar,
                    h1, h2, h3, h4, h5, h6, h7]
                · rcases h8 : denv.tempFileResult with e8 | fid
                  · simp [DownloadPackage, findPackageVersionTar, downloadPackageTar,
                      h1, h2, h3, h4, h5, h6, h7, h8]
                  · rcases h9 : denv.copyErr with _ | e9
                    · simp [DownloadPackage, findPackageVersionTar, downloadPackageTar,
                        h1, h2, h3, h4, h5, h6, h7, h8, h9]
                    · simp [h9]
              · simp [DownloadPackage, findPackageVersionTar, downloadPackageTar,
                  h1, h2, h3, h4, h5, h6]
        · simp [DownloadPackage, findPackageVersionTar, downloadPackageTar, h1, h2, h3]
    · simp [DownloadPackage, findPackageVersionTar, downloadPackageTar, h1]

theorem claim_C3_amended_witness :
    (DownloadPackage wMetaEnvOk wDownloadEnvTmpFail "pkg" "1.0.0").1 = none :=
  (claim_C3_amended wMetaEnvOk wDownloadEnvTmpFail "pkg" "1.0.0").1 rfl (by decide)

/-- C10: `downloadPackageTar` never inspects the HTTP status code: for
any response the transport delivers — the status code is universally
quantified, so error statuses like 404 or 500 included — a successful
request construction, temp-file allocation and copy yield a success
result whose temp file holds exactly the response body, verbatim. -/
theorem claim_C10 (denv : DownloadEnv) (url : String) (resp : HttpResponse) (fid : Nat)
    (hreq : denv.tarNewRequestErr = none)
    (hdo : denv.tarDoResult = .ok resp)
    (htmp : denv.tempFileResult = .ok fid)
    (hcopy : denv.copyErr = none) :
    downloadPackageTar denv url = (some ⟨fid, resp.body⟩, none) := by
  unfold downloadPackageTar
  rw [hreq, hdo, htmp, hcopy]

/-- Download environment delivering a 404 response with a body. -/
def wDownloadEnv404 : DownloadEnv :=
  ⟨none, .ok ⟨404, [9, 9]⟩, .ok 3, none, []⟩

theorem claim_C10_witness :
    downloadPackageTar wDownloadEnv404 "https://tar" = (some ⟨3, [9, 9]⟩, none) :=
  claim_C10 wDownloadEnv404 "https://tar" ⟨404, [9, 9]⟩ 3 rfl rfl rfl rfl

/-- C8 is refuted as stated: with a configured registry base URL that
carries a path ("https://registry.example/sub"), the request URL built
by `getPackageURL` is not the claimed join of the registry base location
and the package name — the base path is discarded, not preserved. -/
theorem claim_C8_counterexample :
    urlString (getPackageURL (normalizeRegistryURL ⟨"https", "registry.example", "/sub"⟩)
        "lodash") ≠
      urlString (normalizeRegistryURL ⟨"https", "registry.example", "/sub"⟩) ++ "/" ++
        "lodash" := by
  decide

/-- C8 (amended): the metadata request URL is
`https://{host}/{packageName}`: the scheme is forced to https and the
package name replaces the entire path of the configured base URL, so any
path present in the base is discarded rather than preserved. -/
theorem claim_C8_amended (base : GoURL) (packageName : String)
    (hne : packageName.data ≠ [])
    (hsl : packageName.data.head? ≠ some '/') :
    (getPackageURL (normalizeRegistryURL base) packageName).scheme = "https" ∧
    (getPackageURL (normalizeRegistryURL base) packageName).host = base.host ∧
    (getPackageURL (normalizeRegistryURL base) packageName).path = packageName ∧
    urlString (getPackageURL (normalizeRegistryURL base) packageName) =
      "https://" ++ base.host ++ "/" ++ packageName := by
  refine ⟨rfl, rfl, rfl, ?_⟩
  unfold urlString getPackageURL normalizeRegistryURL
  rcases hd : packageName.data with _ | ⟨c0, rest⟩
  · exact absurd hd hne
  · have hc0 : ¬ c0 = '/' := by
      intro h
      rw [h] at hd
      exact hsl (by rw [hd]; rfl)
    show "https" ++ "://" ++ base.host ++ (if c0 = '/' then packageName else "/" ++ packageName) =
      "https://" ++ base.host ++ "/" ++ packageName
    rw [if_neg hc0]
    rw [show ("https" ++ "://" : String) = "https://" from rfl,
      String.append_assoc ("https://" ++ base.host) "/" packageName]

theorem claim_C8_amended_witness :
    (getPackageURL (normalizeRegistryURL ⟨"http", "registry.npmjs.org", "/x"⟩)
      "left-pad").scheme = "https" ∧
    (getPackageURL (normalizeRegistryURL ⟨"http", "registry.npmjs.org", "/x"⟩)
      "left-pad").host = "registry.npmjs.org" ∧
    (getPackageURL (normalizeRegistryURL ⟨"http", "registry.npmjs.org", "/x"⟩)
      "left-pad").path = "left-pad" ∧
    urlString (getPackageURL (normalizeRegistryURL ⟨"http", "registry.npmjs.org", "/x"⟩)
      "left-pad") = "https://" ++ "registry.npmjs.org" ++ "/" ++ "left-pad" :=
  claim_C8_amended ⟨"http", "registry.npmjs.org", "/x"⟩ "left-pad" (by decide) (by decide)

/-- Documents for the C5 witness: the same two-entry map in two
iteration orders. -/
def wDocC5a : List (String × NpmVersionInfo) := [("1.0.0", wInfo1), ("2.0.0", wInfo4)]

def wDocC5b : List (String × NpmVersionInfo) := [("2.0.0", wInfo4), ("1.0.0", wInfo1)]

theorem claim_C5_witness :
    resolveOutcome (resolveCore "pkg" wDocC5a "1.0.0") =
      resolveOutcome (resolveCore "pkg" wDocC5b "1.0.0") :=
  claim_C5 "pkg" "1.0.0" wDocC5a wDocC5b (List.Perm.swap ("2.0.0", wInfo4) ("1.0.0", wInfo1) [])
    (by decide)
